import Mathlib

/-!
# Verification of the include_proto_dir extraction pipeline

Shallow embedding of the crate in `src/src/lib.rs`.  The crate is a thin
wrapper around the external `include_dir` capability: an embedded directory
tree is materialized onto a filesystem under `out_dir/proto`, and the
`.proto` files of the tree are enumerated with the glob `**/*.proto`.

Paths are modelled as lists of components (`List String`), file contents as
byte lists, and the filesystem as a pair of functions: the set of existing
directories and the optional file contents at each path.  I/O failures
are modelled by an oracle telling which directory creations and file writes
succeed.
-/

namespace IncludeProtoDir

/-- A filesystem path, as its list of components (the rendering of
`a/b/c` is the list `[a, b, c]`). -/
abbrev Path := List String

/-- File contents, as a list of bytes. -/
abbrev Bytes := List Nat

/-- Modelled from the spec: the observable filesystem state — which paths
are directories, and which paths hold a file with which contents. -/
@[ext]
structure FS where
  isDir : Path → Bool
  contents : Path → Option Bytes

/-- A filesystem with no directories and no files. -/
def FS.empty : FS := { isDir := fun _ => false, contents := fun _ => none }

/-- Modelled from the spec: the outcome of the I/O operations (create
directory, write file) at each path — which ones succeed and which fail
(permission denied, disk full, invalid path). -/
structure Oracle where
  mkdirOk : Path → Bool
  writeOk : Path → Bool

/-- The oracle under which every I/O operation succeeds. -/
def Oracle.allOk : Oracle := { mkdirOk := fun _ => true, writeOk := fun _ => true }

/-- Modelled from the spec: the effect of an idempotent, recursive
create-directory operation: the path and all its ancestors become
directories; nothing else changes. -/
def applyMkDirAll (p : Path) (fs : FS) : FS :=
  { isDir := fun q => fs.isDir q || decide (q <+: p)
    contents := fs.contents }

/-- Modelled from the spec: the effect of a create-or-truncate file write:
the file at `p` now holds exactly `c` (fully overwriting any pre-existing
file), parent directories are created as needed, and no other path
changes. -/
def applyWrite (p : Path) (c : Bytes) (fs : FS) : FS :=
  { isDir := fun q => fs.isDir q || (decide (q <+: p) && !(decide (q = p)))
    contents := fun q => if q = p then some c else fs.contents q }

/-- An entry of the embedded tree, as in the `include_dir` data model:
either a file or a directory, each carrying its path relative to the tree
root (full relative path, as `include_dir` stores it). -/
inductive DirEntry where
  | file (path : Path) (contents : Bytes)
  | dir (path : Path) (entries : List DirEntry)

/-- The embedded directory (the `include_dir::Dir` handle): its list of
entries. -/
structure Dir where
  entries : List DirEntry

/-- The `ProtoDir` struct of `src/src/lib.rs`: a wrapper around the
embedded directory. -/
structure ProtoDir where
  dir : Dir

mutual

/-- Modelled from the spec: one step of `include_dir::Dir::extract`
materialization.  A file entry is written (create-or-truncate) at
`dest ++ path`; a directory entry creates the directory at `dest ++ path`
and then recursively materializes its children.  A failed state is passed
through unchanged (the first failure aborts the whole traversal), and a
failing operation leaves the filesystem unchanged. -/
def matEntry (o : Oracle) (dest : Path) : FS × Bool → DirEntry → FS × Bool
  | (fs, false), _ => (fs, false)
  | (fs, true), DirEntry.file p c =>
      if o.writeOk (dest ++ p) then (applyWrite (dest ++ p) c fs, true) else (fs, false)
  | (fs, true), DirEntry.dir p es =>
      if o.mkdirOk (dest ++ p) then matList o dest (applyMkDirAll (dest ++ p) fs, true) es
      else (fs, false)

/-- Modelled from the spec: materialization of a list of entries in order
(the traversal order of the embedded tree). -/
def matList (o : Oracle) (dest : Path) : FS × Bool → List DirEntry → FS × Bool
  | st, [] => st
  | st, e :: es => matList o dest (matEntry o dest st e) es

end

mutual

/-- The files of one entry of the embedded tree, in traversal order, each
with its path relative to the tree root. -/
def entryFiles : DirEntry → List (Path × Bytes)
  | DirEntry.file p c => [(p, c)]
  | DirEntry.dir _ es => entriesFiles es

/-- The files of a list of entries, in traversal order. -/
def entriesFiles : List DirEntry → List (Path × Bytes)
  | [] => []
  | e :: es => entryFiles e ++ entriesFiles es

end

/-- A primitive filesystem operation performed during materialization. -/
inductive Op where
  | mkdir (p : Path)
  | write (p : Path) (c : Bytes)

mutual

/-- The flat list of primitive operations that materializing one entry
under `dest` attempts, in order. -/
def compileE (dest : Path) : DirEntry → List Op
  | DirEntry.file p c => [Op.write (dest ++ p) c]
  | DirEntry.dir p es => Op.mkdir (dest ++ p) :: compileL dest es

/-- The flat list of primitive operations that materializing a list of
entries under `dest` attempts, in order. -/
def compileL (dest : Path) : List DirEntry → List Op
  | [] => []
  | e :: es => compileE dest e ++ compileL dest es

end

/-- Running one primitive operation: a failed state passes through, a
failing operation leaves the filesystem unchanged and clears the flag. -/
def runOp (o : Oracle) : FS × Bool → Op → FS × Bool
  | (fs, false), _ => (fs, false)
  | (fs, true), Op.mkdir p => if o.mkdirOk p then (applyMkDirAll p fs, true) else (fs, false)
  | (fs, true), Op.write p c => if o.writeOk p then (applyWrite p c fs, true) else (fs, false)

/-- Running a list of primitive operations in order. -/
def runOps (o : Oracle) : FS × Bool → List Op → FS × Bool
  | st, [] => st
  | st, op :: l => runOps o (runOp o st op) l

/-- The extension `.proto`, as characters. -/
def protoExt : List Char := ['.', 'p', 'r', 'o', 't', 'o']

/-- A path whose file name (last component) ends in the extension
`.proto`; this is the predicate the specification uses to describe which
embedded files are listed. -/
def isProtoPath : Path → Bool
  | [] => false
  | [n] => decide (protoExt <:+ n.data)
  | _ :: rest => isProtoPath rest

/-- Whether some suffix of the list (the list itself included) satisfies
the given test. -/
def tailsAny {α : Type} (f : List α → Bool) : List α → Bool
  | [] => f []
  | c :: cs => f (c :: cs) || tailsAny f cs

/-- Modelled from the spec: glob matching of one pattern component against
one path component.  A `*` matches any (possibly empty) run of characters;
every other character matches itself. -/
def compMatch : List Char → List Char → Bool
  | [], t => t.isEmpty
  | p :: ps, t =>
    if p = '*' then tailsAny (fun u => compMatch ps u) t
    else
      match t with
      | [] => false
      | c :: t2 => (p == c) && compMatch ps t2

/-- Modelled from the spec: glob matching of a component-wise pattern
against a path.  The component `**` matches any (possibly empty) run of
path components; any other component must match the corresponding path
component. -/
def globMatch : List (List Char) → Path → Bool
  | [], comps => comps.isEmpty
  | pc :: pcs, comps =>
    if pc = ['*', '*'] then tailsAny (fun u => globMatch pcs u) comps
    else
      match comps with
      | [] => false
      | c :: cs => compMatch pc c.data && globMatch pcs cs

/-- Splits a character list into its `/`-separated components. -/
def splitComps : List Char → List (List Char)
  | [] => [[]]
  | c :: rest =>
    match splitComps rest with
    | [] => [[]]
    | comp :: comps => if c = '/' then [] :: comp :: comps else (c :: comp) :: comps

/-- Parses a glob pattern string into its components. -/
def parseGlobPat (s : String) : List (List Char) := splitComps s.data

/-- Whether a character list contains two consecutive stars. -/
def hasDoubleStar : List Char → Bool
  | '*' :: '*' :: _ => true
  | _ :: cs => hasDoubleStar cs
  | [] => false

/-- Modelled from the spec: a pattern component is well formed when a
recursive wildcard `**` only occurs as a whole component. -/
def compValid (p : List Char) : Bool := (p == ['*', '*']) || !(hasDoubleStar p)

/-- Modelled from the spec: pattern well-formedness — a malformed pattern
is the pattern-lookup failure mode of the glob evaluation. -/
def globValid (s : String) : Bool := (parseGlobPat s).all compValid

/-- Modelled from the spec: `include_dir::Dir::find` — evaluates a glob
pattern against the in-memory tree, returning the relative paths of the
matching file handles in traversal order, or an error when the pattern is
malformed.  No filesystem access is involved. -/
def find (d : Dir) (pat : String) : Except Unit (List Path) :=
  if globValid pat then
    Except.ok (((entriesFiles d.entries).map Prod.fst).filter
      (fun p => globMatch (parseGlobPat pat) p))
  else Except.error ()

/-- The `ExtractedProtoDir` struct of `src/src/lib.rs`: the destination
path of the extraction and the recorded list of `.proto` files. -/
structure ExtractedProtoDir where
  path : Path
  files : List Path
deriving DecidableEq

/-- The accessor `ExtractedProtoDir::as_path` of `src/src/lib.rs`. -/
def ExtractedProtoDir.asPath (e : ExtractedProtoDir) : Path := e.path

/-- The accessor `ExtractedProtoDir::protos` of `src/src/lib.rs`: returns
the recorded file list unchanged. -/
def ExtractedProtoDir.protos (e : ExtractedProtoDir) : List Path := e.files

/-- Rendering a path to a string (the display of a `PathBuf`). -/
def renderPath (p : Path) : String := String.intercalate "/" p

/-- The method `ExtractedProtoDir::to_glob` of `src/src/lib.rs`:
the string interpolation of the displayed destination path followed by
the characters `/**`. -/
def ExtractedProtoDir.toGlob (e : ExtractedProtoDir) : String :=
  renderPath e.path ++ "/**"

/-- The method `ProtoDir::extract` of `src/src/lib.rs`: joins `proto` onto
the output directory, materializes the embedded tree there (aborting on
the first I/O failure), and on success records the destination path
together with the relative paths found by the glob `**/*.proto` over the
embedded tree. -/
def ProtoDir.extract (o : Oracle) (pd : ProtoDir) (out : Path) (fs : FS) :
    FS × Option ExtractedProtoDir :=
  let protoPath := out ++ ["proto"]
  let st := matList o protoPath (fs, true) pd.dir.entries
  match st.2, find pd.dir "**/*.proto" with
  | true, Except.ok fls => (st.1, some { path := protoPath, files := fls })
  | true, Except.error _ => (st.1, none)
  | false, _ => (st.1, none)

/-- Whether one primitive operation succeeds under the oracle. -/
def opOk (o : Oracle) : Op → Bool
  | Op.mkdir p => o.mkdirOk p
  | Op.write p _ => o.writeOk p

/-- Whether a whole list of primitive operations runs to completion. -/
def opsFlag (o : Oracle) : List Op → Bool
  | [] => true
  | op :: l => opOk o op && opsFlag o l

/-- The contents that the executed part of an operation list leaves at a
path: the last executed write at that path, if any.  Operations past the
first failing one are not executed. -/
def lastW (o : Oracle) : List Op → Path → Option Bytes
  | [], _ => none
  | Op.mkdir p :: l, q => if o.mkdirOk p then lastW o l q else none
  | Op.write p c :: l, q =>
      if o.writeOk p then
        match lastW o l q with
        | some c2 => some c2
        | none => if q = p then some c else none
      else none

/-- Whether the executed part of an operation list turns a path into a
directory. -/
def dirW (o : Oracle) : List Op → Path → Bool
  | [], _ => false
  | Op.mkdir p :: l, q => o.mkdirOk p && (decide (q <+: p) || dirW o l q)
  | Op.write p _ :: l, q =>
      o.writeOk p && ((decide (q <+: p) && !(decide (q = p))) || dirW o l q)

/-- The file writes an operation list contains, in order
(oracle-independent). -/
def writesOf : List Op → List (Path × Bytes)
  | [] => []
  | Op.mkdir _ :: l => writesOf l
  | Op.write p c :: l => (p, c) :: writesOf l

/-- A concrete embedded tree for the examples: the file
`foo/v1/foo.proto` inside its directories, plus a top-level README. -/
def exProtoDir : ProtoDir :=
  { dir := { entries := [
      DirEntry.dir ["foo"] [
        DirEntry.dir ["foo", "v1"] [
          DirEntry.file ["foo", "v1", "foo.proto"] [1, 2, 3]]],
      DirEntry.file ["README.md"] [72, 105]] } }

/-- A concrete embedded tree with no proto file at all: only a README. -/
def exReadmeDir : ProtoDir :=
  { dir := { entries := [DirEntry.file ["README.md"] [72, 105]] } }

/-- An oracle under which exactly one write fails: the write of the
README under the destination of the example extraction. -/
def exFailOracle : Oracle :=
  { mkdirOk := fun _ => true
    writeOk := fun q => !(q == ["out", "proto", "README.md"]) }

/-- A filesystem that already holds a stale file under the destination
directory of the example extraction. -/
def exStaleFS : FS :=
  { isDir := fun q => (q == ["out"]) || (q == ["out", "proto"])
    contents := fun q => if q = ["out", "proto", "stale.txt"] then some [7] else none }

/-! ## Characterization of the fixed glob pattern -/

theorem tailsAny_iff {α : Type} (f : List α → Bool) (t : List α) :
    tailsAny f t = true ↔ ∃ u, u <:+ t ∧ f u = true := by
  induction t with
  | nil =>
    simp only [tailsAny, List.suffix_nil]
    constructor
    · intro h; exact ⟨[], rfl, h⟩
    · rintro ⟨u, rfl, h⟩; exact h
  | cons c cs ih =>
    simp only [tailsAny, Bool.or_eq_true, ih, List.suffix_cons_iff]
    constructor
    · rintro (h | ⟨u, hu, h⟩)
      · exact ⟨c :: cs, Or.inl rfl, h⟩
      · exact ⟨u, Or.inr hu, h⟩
    · rintro ⟨u, hu | hu, h⟩
      · exact Or.inl (hu ▸ h)
      · exact Or.inr ⟨u, hu, h⟩

theorem compMatch_lit (lit : List Char) (hl : '*' ∉ lit) :
    ∀ t : List Char, compMatch lit t = true ↔ lit = t := by
  induction lit with
  | nil =>
    intro t
    show t.isEmpty = true ↔ [] = t
    cases t <;> simp
  | cons p ps ih =>
    intro t
    have hp : ¬ p = '*' := fun h => hl (h ▸ List.mem_cons_self p ps)
    have hps : '*' ∉ ps := fun h => hl (List.mem_cons_of_mem _ h)
    cases t with
    | nil => simp [compMatch, hp]
    | cons c t2 =>
      simp only [compMatch, if_neg hp, Bool.and_eq_true, beq_iff_eq, ih hps t2,
        List.cons.injEq]

theorem compMatch_star (lit : List Char) (hl : '*' ∉ lit) (t : List Char) :
    compMatch ('*' :: lit) t = true ↔ lit <:+ t := by
  have h1 : compMatch ('*' :: lit) t = tailsAny (fun u => compMatch lit u) t := by
    simp [compMatch]
  rw [h1, tailsAny_iff]
  constructor
  · rintro ⟨u, hu, h⟩
    exact (compMatch_lit lit hl u).mp h ▸ hu
  · intro h
    exact ⟨lit, h, (compMatch_lit lit hl lit).mpr rfl⟩

theorem parse_proto_pat : parseGlobPat "**/*.proto" = [['*', '*'], '*' :: protoExt] := by
  decide

theorem star_notin_protoExt : '*' ∉ protoExt := by decide

theorem globMatch_proto (p : Path) :
    globMatch (parseGlobPat "**/*.proto") p = isProtoPath p := by
  rw [parse_proto_pat]
  induction p with
  | nil => decide
  | cons c cs ih =>
    have h1 : globMatch [['*', '*'], '*' :: protoExt] (c :: cs) =
        (globMatch [('*' :: protoExt)] (c :: cs) ||
          globMatch [['*', '*'], '*' :: protoExt] cs) := by
      simp [globMatch, tailsAny]
    have h2 : globMatch [('*' :: protoExt)] (c :: cs) =
        (compMatch ('*' :: protoExt) c.data && cs.isEmpty) := by
      have hne : ¬ ('*' :: protoExt) = ['*', '*'] := by decide
      simp [globMatch, hne]
    rw [h1, h2, ih]
    cases cs with
    | nil =>
      simp only [List.isEmpty_nil, Bool.and_true, isProtoPath, Bool.or_false]
      rw [Bool.eq_iff_iff, compMatch_star protoExt star_notin_protoExt]
      simp
    | cons c2 cs2 =>
      simp [isProtoPath]

theorem find_proto (d : Dir) :
    find d "**/*.proto" =
      Except.ok (((entriesFiles d.entries).map Prod.fst).filter isProtoPath) := by
  have hv : globValid "**/*.proto" = true := by decide
  simp only [find, hv, if_true, Except.ok.injEq]
  exact List.filter_congr (fun p _ => globMatch_proto p)

/-! ## Materialization as a flat operation list -/

theorem runOp_false (o : Oracle) (fs : FS) (op : Op) :
    runOp o (fs, false) op = (fs, false) := by
  cases op <;> rfl

theorem runOps_false (o : Oracle) (fs : FS) (l : List Op) :
    runOps o (fs, false) l = (fs, false) := by
  induction l with
  | nil => rfl
  | cons op l ih => rw [runOps, runOp_false]; exact ih

theorem runOps_append (o : Oracle) (st : FS × Bool) (l1 l2 : List Op) :
    runOps o st (l1 ++ l2) = runOps o (runOps o st l1) l2 := by
  induction l1 generalizing st with
  | nil => rfl
  | cons op l ih => rw [List.cons_append, runOps, runOps, ih]

mutual

theorem matEntry_eq_runOps (o : Oracle) (dest : Path) (st : FS × Bool) (e : DirEntry) :
    matEntry o dest st e = runOps o st (compileE dest e) := by
  obtain ⟨fs, b⟩ := st
  cases b with
  | false =>
    cases e with
    | file p c => simp [matEntry, compileE, runOps, runOp_false]
    | dir p es => simp [matEntry, compileE, runOps, runOp_false, runOps_false]
  | true =>
    cases e with
    | file p c =>
      by_cases h : o.writeOk (dest ++ p) = true <;>
        simp [matEntry, compileE, runOps, runOp, h]
    | dir p es =>
      by_cases h : o.mkdirOk (dest ++ p) = true
      · have hr := matList_eq_runOps o dest (applyMkDirAll (dest ++ p) fs, true) es
        simp [matEntry, compileE, runOps, runOp, h, hr]
      · simp [matEntry, compileE, runOps, runOp, h, runOps_false]

theorem matList_eq_runOps (o : Oracle) (dest : Path) (st : FS × Bool) (es : List DirEntry) :
    matList o dest st es = runOps o st (compileL dest es) := by
  cases es with
  | nil => rfl
  | cons e es =>
    have h1 := matEntry_eq_runOps o dest st e
    have h2 := matList_eq_runOps o dest (matEntry o dest st e) es
    rw [matList, compileL, runOps_append, h2, h1]

end

/-! ## Pointwise characterization of a materialization run -/

theorem runOps_flag (o : Oracle) (fs : FS) (l : List Op) :
    (runOps o (fs, true) l).2 = opsFlag o l := by
  induction l generalizing fs with
  | nil => rfl
  | cons op l ih =>
    cases op with
    | mkdir p =>
      by_cases h : o.mkdirOk p = true
      · rw [runOps]; simp [runOp, h, opsFlag, opOk, ih]
      · rw [runOps]; simp [runOp, h, opsFlag, opOk, runOps_false]
    | write p c =>
      by_cases h : o.writeOk p = true
      · rw [runOps]; simp [runOp, h, opsFlag, opOk, ih]
      · rw [runOps]; simp [runOp, h, opsFlag, opOk, runOps_false]

theorem runOps_contents (o : Oracle) (fs : FS) (l : List Op) (q : Path) :
    (runOps o (fs, true) l).1.contents q =
      (match lastW o l q with
       | some c => some c
       | none => fs.contents q) := by
  induction l generalizing fs with
  | nil => rfl
  | cons op l ih =>
    cases op with
    | mkdir p =>
      by_cases h : o.mkdirOk p = true
      · rw [runOps]
        simp only [runOp, h, if_true]
        rw [ih]
        have hc : (applyMkDirAll p fs).contents = fs.contents := rfl
        simp [lastW, h, hc]
      · rw [runOps]
        simp [runOp, h, runOps_false, lastW]
    | write p c =>
      by_cases h : o.writeOk p = true
      · rw [runOps]
        simp only [runOp, h, if_true]
        rw [ih]
        cases hlw : lastW o l q with
        | some c2 => simp [lastW, h, hlw]
        | none =>
          by_cases hq : q = p
          · subst hq; simp [lastW, h, hlw, applyWrite]
          · simp [lastW, h, hlw, applyWrite, hq]
      · rw [runOps]
        simp [runOp, h, runOps_false, lastW]

theorem runOps_isDir (o : Oracle) (fs : FS) (l : List Op) (q : Path) :
    (runOps o (fs, true) l).1.isDir q = (fs.isDir q || dirW o l q) := by
  induction l generalizing fs with
  | nil => simp [runOps, dirW]
  | cons op l ih =>
    cases op with
    | mkdir p =>
      by_cases h : o.mkdirOk p = true
      · rw [runOps]
        simp only [runOp, h, if_true]
        rw [ih]
        simp [applyMkDirAll, dirW, h, Bool.or_assoc]
      · rw [runOps]
        simp [runOp, h, runOps_false, dirW]
    | write p c =>
      by_cases h : o.writeOk p = true
      · rw [runOps]
        simp only [runOp, h, if_true]
        rw [ih]
        simp [applyWrite, dirW, h, Bool.or_assoc]
      · rw [runOps]
        simp [runOp, h, runOps_false, dirW]

theorem runOps_idem (o : Oracle) (fs : FS) (l : List Op) :
    runOps o ((runOps o (fs, true) l).1, true) l = runOps o (fs, true) l := by
  have hfs : (runOps o ((runOps o (fs, true) l).1, true) l).1 = (runOps o (fs, true) l).1 := by
    apply FS.ext
    · funext q
      rw [runOps_isDir, runOps_isDir]
      cases fs.isDir q <;> cases dirW o l q <;> rfl
    · funext q
      rw [runOps_contents, runOps_contents]
      cases lastW o l q <;> rfl
  have hflag : (runOps o ((runOps o (fs, true) l).1, true) l).2 = (runOps o (fs, true) l).2 := by
    rw [runOps_flag, runOps_flag]
  exact Prod.ext hfs hflag

/-! ## Which files a run writes -/

theorem lastW_none (o : Oracle) (l : List Op) (q : Path)
    (h : ∀ pc ∈ writesOf l, q ≠ pc.1) : lastW o l q = none := by
  induction l with
  | nil => rfl
  | cons op l ih =>
    cases op with
    | mkdir p =>
      have hl : ∀ pc ∈ writesOf l, q ≠ pc.1 := fun pc hpc => h pc (by simpa [writesOf] using hpc)
      by_cases hm : o.mkdirOk p = true <;> simp [lastW, hm, ih hl]
    | write p c =>
      have hq : q ≠ p := h (p, c) (by simp [writesOf])
      have hl : ∀ pc ∈ writesOf l, q ≠ pc.1 := fun pc hpc =>
        h pc (by simp [writesOf]; exact Or.inr hpc)
      by_cases hw : o.writeOk p = true <;> simp [lastW, hw, ih hl, hq]

theorem lastW_mem (o : Oracle) (l : List Op) (q : Path) (c : Bytes)
    (hflag : opsFlag o l = true) (hmem : (q, c) ∈ writesOf l)
    (hnd : ((writesOf l).map Prod.fst).Nodup) : lastW o l q = some c := by
  induction l with
  | nil => simp [writesOf] at hmem
  | cons op l ih =>
    cases op with
    | mkdir p =>
      rw [opsFlag, opOk, Bool.and_eq_true] at hflag
      rw [writesOf] at hmem hnd
      simp [lastW, hflag.1, ih hflag.2 hmem hnd]
    | write p c2 =>
      rw [opsFlag, opOk, Bool.and_eq_true] at hflag
      rw [writesOf] at hmem hnd
      rw [List.map_cons, List.nodup_cons] at hnd
      rcases List.mem_cons.mp hmem with heq | hmem2
      · rw [Prod.mk.injEq] at heq
        obtain ⟨hq, hc⟩ := heq
        subst hq; subst hc
        have hnone : lastW o l q = none := by
          apply lastW_none
          intro pc hpc hqp
          exact hnd.1 (List.mem_map.mpr ⟨pc, hpc, hqp.symm⟩)
        simp [lastW, hflag.1, hnone]
      · simp [lastW, hflag.1, ih hflag.2 hmem2 hnd.2]

theorem writesOf_append (l1 l2 : List Op) :
    writesOf (l1 ++ l2) = writesOf l1 ++ writesOf l2 := by
  induction l1 with
  | nil => rfl
  | cons op l ih => cases op <;> simp [writesOf, ih]

mutual

theorem writesOf_compileE (dest : Path) (e : DirEntry) :
    writesOf (compileE dest e) =
      (entryFiles e).map (fun pc => (dest ++ pc.1, pc.2)) := by
  cases e with
  | file p c => rfl
  | dir p es =>
    show writesOf (compileL dest es) = _
    exact writesOf_compileL dest es

theorem writesOf_compileL (dest : Path) (es : List DirEntry) :
    writesOf (compileL dest es) =
      (entriesFiles es).map (fun pc => (dest ++ pc.1, pc.2)) := by
  cases es with
  | nil => rfl
  | cons e es =>
    rw [compileL, entriesFiles, writesOf_append, List.map_append,
      writesOf_compileE dest e, writesOf_compileL dest es]

end

/-! ## The extraction pipeline, unfolded -/

theorem extract_eq (o : Oracle) (pd : ProtoDir) (out : Path) (fs : FS) :
    ProtoDir.extract o pd out fs =
      ((matList o (out ++ ["proto"]) (fs, true) pd.dir.entries).1,
       if (matList o (out ++ ["proto"]) (fs, true) pd.dir.entries).2 = true then
         some { path := out ++ ["proto"],
                files := ((entriesFiles pd.dir.entries).map Prod.fst).filter isProtoPath }
       else none) := by
  simp only [ProtoDir.extract, find_proto]
  cases h : (matList o (out ++ ["proto"]) (fs, true) pd.dir.entries).2 <;> simp [h]

theorem extract_snd_elim (o : Oracle) (pd : ProtoDir) (out : Path) (fs : FS)
    (e : ExtractedProtoDir) (h : (ProtoDir.extract o pd out fs).2 = some e) :
    e = { path := out ++ ["proto"],
          files := ((entriesFiles pd.dir.entries).map Prod.fst).filter isProtoPath } ∧
      opsFlag o (compileL (out ++ ["proto"]) pd.dir.entries) = true := by
  rw [extract_eq] at h
  by_cases hf : (matList o (out ++ ["proto"]) (fs, true) pd.dir.entries).2 = true
  · simp only [hf, if_true, Option.some.injEq] at h
    refine ⟨h.symm, ?_⟩
    rw [matList_eq_runOps, runOps_flag] at hf
    exact hf
  · simp [hf] at h

theorem opsFlag_allOk (l : List Op) : opsFlag Oracle.allOk l = true := by
  induction l with
  | nil => rfl
  | cons op l ih =>
    rw [opsFlag, ih, Bool.and_true]
    cases op <;> rfl

theorem writesOf_compileL_fst (dest : Path) (es : List DirEntry) :
    (writesOf (compileL dest es)).map Prod.fst =
      (entriesFiles es).map (fun pc => dest ++ pc.1) := by
  rw [writesOf_compileL, List.map_map]
  rfl

theorem extract_writes (o : Oracle) (pd : ProtoDir) (out : Path) (fs : FS)
    (p : Path) (c : Bytes)
    (hnd : ((entriesFiles pd.dir.entries).map Prod.fst).Nodup)
    (hflag : opsFlag o (compileL (out ++ ["proto"]) pd.dir.entries) = true)
    (hmem : (p, c) ∈ entriesFiles pd.dir.entries) :
    (ProtoDir.extract o pd out fs).1.contents ((out ++ ["proto"]) ++ p) = some c := by
  rw [extract_eq]
  show (matList o (out ++ ["proto"]) (fs, true) pd.dir.entries).1.contents _ = _
  rw [matList_eq_runOps, runOps_contents]
  have hlw : lastW o (compileL (out ++ ["proto"]) pd.dir.entries) ((out ++ ["proto"]) ++ p) =
      some c := by
    apply lastW_mem _ _ _ _ hflag
    · rw [writesOf_compileL]
      exact List.mem_map.mpr ⟨(p, c), hmem, rfl⟩
    · rw [writesOf_compileL_fst]
      have : (entriesFiles pd.dir.entries).map (fun pc => (out ++ ["proto"]) ++ pc.1) =
          ((entriesFiles pd.dir.entries).map Prod.fst).map
            (fun r => (out ++ ["proto"]) ++ r) := by
        rw [List.map_map]; rfl
      rw [this]
      exact hnd.map (fun a b hab => List.append_cancel_left hab)
  rw [hlw]

theorem extract_snd_of_flag (o : Oracle) (pd : ProtoDir) (out : Path) (fs : FS)
    (hflag : opsFlag o (compileL (out ++ ["proto"]) pd.dir.entries) = true) :
    (ProtoDir.extract o pd out fs).2 =
      some { path := out ++ ["proto"],
             files := ((entriesFiles pd.dir.entries).map Prod.fst).filter isProtoPath } := by
  have hf2 : (matList o (out ++ ["proto"]) (fs, true) pd.dir.entries).2 = true := by
    rw [matList_eq_runOps, runOps_flag]; exact hflag
  rw [extract_eq]
  simp [hf2]

/-! ## The claims -/

/-- C1: after a successful extract, the list returned by protos() contains
exactly the relative paths of the embedded files whose name ends in
.proto, at any nesting depth: a path is in protos() exactly when it is the
relative path of an embedded file and carries the .proto extension. -/
theorem c1_filter_completeness (o : Oracle) (pd : ProtoDir) (out : Path) (fs : FS)
    (e : ExtractedProtoDir) (p : Path)
    (h : (ProtoDir.extract o pd out fs).2 = some e) :
    p ∈ e.protos ↔
      p ∈ (entriesFiles pd.dir.entries).map Prod.fst ∧ isProtoPath p = true := by
  obtain ⟨he, -⟩ := extract_snd_elim o pd out fs e h
  subst he
  show p ∈ List.filter _ _ ↔ _
  exact List.mem_filter

/-- Witness for C1 at the example tree: the nested proto file is listed. -/
theorem c1_filter_completeness_wit :
    ["foo", "v1", "foo.proto"] ∈
        (ExtractedProtoDir.mk ["out", "proto"] [["foo", "v1", "foo.proto"]]).protos ↔
      ["foo", "v1", "foo.proto"] ∈ (entriesFiles exProtoDir.dir.entries).map Prod.fst ∧
        isProtoPath ["foo", "v1", "foo.proto"] = true :=
  c1_filter_completeness Oracle.allOk exProtoDir ["out"] FS.empty
    (ExtractedProtoDir.mk ["out", "proto"] [["foo", "v1", "foo.proto"]])
    ["foo", "v1", "foo.proto"] (by decide)

/-- C2: for every file embedded at relative path p with contents c, after
a successful extract the filesystem holds at out ++ [proto] ++ p a file
whose contents equal c byte for byte (the embedded paths being distinct,
as they are in an embedded directory snapshot). -/
theorem c2_round_trip (o : Oracle) (pd : ProtoDir) (out : Path) (fs : FS)
    (e : ExtractedProtoDir) (p : Path) (c : Bytes)
    (hnd : ((entriesFiles pd.dir.entries).map Prod.fst).Nodup)
    (h : (ProtoDir.extract o pd out fs).2 = some e)
    (hmem : (p, c) ∈ entriesFiles pd.dir.entries) :
    (ProtoDir.extract o pd out fs).1.contents ((out ++ ["proto"]) ++ p) = some c := by
  obtain ⟨-, hflag⟩ := extract_snd_elim o pd out fs e h
  exact extract_writes o pd out fs p c hnd hflag hmem

/-- Witness for C2: the example proto file is on disk with its bytes. -/
theorem c2_round_trip_wit :
    (ProtoDir.extract Oracle.allOk exProtoDir ["out"] FS.empty).1.contents
        ((["out"] ++ ["proto"]) ++ ["foo", "v1", "foo.proto"]) = some [1, 2, 3] :=
  c2_round_trip Oracle.allOk exProtoDir ["out"] FS.empty
    (ExtractedProtoDir.mk ["out", "proto"] [["foo", "v1", "foo.proto"]])
    ["foo", "v1", "foo.proto"] [1, 2, 3] (by decide) (by decide) (by decide)

/-- C3: a successful extract returns a value whose as_path() is the output
directory joined with the fixed child name proto; nothing else determines
the destination. -/
theorem c3_path_convention (o : Oracle) (pd : ProtoDir) (out : Path) (fs : FS)
    (e : ExtractedProtoDir)
    (h : (ProtoDir.extract o pd out fs).2 = some e) :
    e.asPath = out ++ ["proto"] := by
  obtain ⟨he, -⟩ := extract_snd_elim o pd out fs e h
  subst he
  rfl

/-- Witness for C3 at the example tree. -/
theorem c3_path_convention_wit :
    (ExtractedProtoDir.mk ["out", "proto"] [["foo", "v1", "foo.proto"]]).asPath =
      ["out"] ++ ["proto"] :=
  c3_path_convention Oracle.allOk exProtoDir ["out"] FS.empty
    (ExtractedProtoDir.mk ["out", "proto"] [["foo", "v1", "foo.proto"]]) (by decide)

/-- C4: to_glob() returns exactly the rendering of the stored destination
path followed by the characters /**. -/
theorem c4_glob_derivation (e : ExtractedProtoDir) :
    e.toGlob = renderPath e.asPath ++ "/**" := rfl

/-- C5: running extract a second time with the same tree, oracle and
output directory, starting from the filesystem state the first run left,
produces the same filesystem state and the same returned value as the
first run. -/
theorem c5_idempotence (o : Oracle) (pd : ProtoDir) (out : Path) (fs : FS) :
    ProtoDir.extract o pd out (ProtoDir.extract o pd out fs).1 =
      ProtoDir.extract o pd out fs := by
  simp only [extract_eq, matList_eq_runOps, runOps_idem]

/-- C6: when some I/O operation of the materialization fails, extract
produces no ExtractedProtoDir value, and the final filesystem keeps every
write executed before the failure (no rollback) while every other path is
untouched. -/
theorem c6_failure_policy (o : Oracle) (pd : ProtoDir) (out : Path) (fs : FS) (q : Path)
    (hfail : opsFlag o (compileL (out ++ ["proto"]) pd.dir.entries) = false) :
    (ProtoDir.extract o pd out fs).2 = none ∧
      (ProtoDir.extract o pd out fs).1.contents q =
        Option.or (lastW o (compileL (out ++ ["proto"]) pd.dir.entries) q)
          (fs.contents q) := by
  have hf2 : (matList o (out ++ ["proto"]) (fs, true) pd.dir.entries).2 = false := by
    rw [matList_eq_runOps, runOps_flag]; exact hfail
  constructor
  · rw [extract_eq]; simp [hf2]
  · rw [extract_eq]
    show (matList o (out ++ ["proto"]) (fs, true) pd.dir.entries).1.contents q = _
    rw [matList_eq_runOps, runOps_contents]
    cases lastW o (compileL (out ++ ["proto"]) pd.dir.entries) q <;> rfl

/-- Witness for C6: with the oracle failing on the README write, extract
returns no value, yet the proto file written before the failure is still
on disk. -/
theorem c6_failure_policy_wit :
    opsFlag exFailOracle (compileL (["out"] ++ ["proto"]) exProtoDir.dir.entries) = false ∧
      ((ProtoDir.extract exFailOracle exProtoDir ["out"] FS.empty).2 = none ∧
        (ProtoDir.extract exFailOracle exProtoDir ["out"] FS.empty).1.contents
            ["out", "proto", "foo", "v1", "foo.proto"] =
          Option.or
            (lastW exFailOracle (compileL (["out"] ++ ["proto"]) exProtoDir.dir.entries)
              ["out", "proto", "foo", "v1", "foo.proto"])
            (FS.empty.contents ["out", "proto", "foo", "v1", "foo.proto"])) :=
  ⟨by decide,
    c6_failure_policy exFailOracle exProtoDir ["out"] FS.empty
      ["out", "proto", "foo", "v1", "foo.proto"] (by decide)⟩

/-- C7: the recorded file list comes from the embedded tree alone: two
successful extractions of the same tree, under any oracles, output
directories and starting filesystems, return the same protos() list. -/
theorem c7_protos_tree_only (o1 o2 : Oracle) (pd : ProtoDir) (out1 out2 : Path)
    (fs1 fs2 : FS) (e1 e2 : ExtractedProtoDir)
    (h1 : (ProtoDir.extract o1 pd out1 fs1).2 = some e1)
    (h2 : (ProtoDir.extract o2 pd out2 fs2).2 = some e2) :
    e1.protos = e2.protos := by
  obtain ⟨he1, -⟩ := extract_snd_elim o1 pd out1 fs1 e1 h1
  obtain ⟨he2, -⟩ := extract_snd_elim o2 pd out2 fs2 e2 h2
  subst he1; subst he2
  rfl

/-- Witness for C7: two extractions of the example tree into different
directories, one over a dirty filesystem, list the same protos. -/
theorem c7_protos_tree_only_wit :
    (ExtractedProtoDir.mk ["out", "proto"] [["foo", "v1", "foo.proto"]]).protos =
      (ExtractedProtoDir.mk ["elsewhere", "proto"] [["foo", "v1", "foo.proto"]]).protos :=
  c7_protos_tree_only Oracle.allOk Oracle.allOk exProtoDir ["out"] ["elsewhere"]
    FS.empty exStaleFS
    (ExtractedProtoDir.mk ["out", "proto"] [["foo", "v1", "foo.proto"]])
    (ExtractedProtoDir.mk ["elsewhere", "proto"] [["foo", "v1", "foo.proto"]])
    (by decide) (by decide)

/-- C8: extraction only writes the files of the embedded tree: the
contents of any path that is not the destination image of an embedded
file are left exactly as they were, so stale files survive unchanged. -/
theorem c8_no_cleanup_frame (o : Oracle) (pd : ProtoDir) (out : Path) (fs : FS) (q : Path)
    (hq : ∀ pc ∈ entriesFiles pd.dir.entries, q ≠ (out ++ ["proto"]) ++ pc.1) :
    (ProtoDir.extract o pd out fs).1.contents q = fs.contents q := by
  rw [extract_eq]
  show (matList o (out ++ ["proto"]) (fs, true) pd.dir.entries).1.contents q = _
  rw [matList_eq_runOps, runOps_contents]
  have hlw : lastW o (compileL (out ++ ["proto"]) pd.dir.entries) q = none := by
    apply lastW_none
    intro pc hpc
    rw [writesOf_compileL] at hpc
    obtain ⟨pc0, hpc0, rfl⟩ := List.mem_map.mp hpc
    exact hq pc0 hpc0
  rw [hlw]

/-- Witness for C8: a stale file under the destination survives a rerun of
the extraction over it. -/
theorem c8_no_cleanup_frame_wit :
    (ProtoDir.extract Oracle.allOk exProtoDir ["out"] exStaleFS).1.contents
        ["out", "proto", "stale.txt"] =
      exStaleFS.contents ["out", "proto", "stale.txt"] :=
  c8_no_cleanup_frame Oracle.allOk exProtoDir ["out"] exStaleFS
    ["out", "proto", "stale.txt"] (by decide)

/-- C9: on a tree with no .proto file, extraction under working I/O still
succeeds, returns an empty protos() list, and writes every embedded
non-proto file to disk. -/
theorem c9_empty_protos (pd : ProtoDir) (out : Path) (fs : FS) (p : Path) (c : Bytes)
    (hnd : ((entriesFiles pd.dir.entries).map Prod.fst).Nodup)
    (hnp : ∀ q ∈ (entriesFiles pd.dir.entries).map Prod.fst, isProtoPath q = false)
    (hmem : (p, c) ∈ entriesFiles pd.dir.entries) :
    (ProtoDir.extract Oracle.allOk pd out fs).2 =
        some { path := out ++ ["proto"], files := [] } ∧
      (ProtoDir.extract Oracle.allOk pd out fs).1.contents ((out ++ ["proto"]) ++ p) =
        some c := by
  have hflag := opsFlag_allOk (compileL (out ++ ["proto"]) pd.dir.entries)
  constructor
  · rw [extract_snd_of_flag Oracle.allOk pd out fs hflag]
    have hnil : ((entriesFiles pd.dir.entries).map Prod.fst).filter isProtoPath = [] :=
      List.filter_eq_nil_iff.mpr (fun a ha => by simp [hnp a ha])
    rw [hnil]
  · exact extract_writes Oracle.allOk pd out fs p c hnd hflag hmem

/-- Witness for C9 at the README-only tree. -/
theorem c9_empty_protos_wit :
    (ProtoDir.extract Oracle.allOk exReadmeDir ["out"] FS.empty).2 =
        some { path := ["out"] ++ ["proto"], files := [] } ∧
      (ProtoDir.extract Oracle.allOk exReadmeDir ["out"] FS.empty).1.contents
          ((["out"] ++ ["proto"]) ++ ["README.md"]) = some [72, 105] :=
  c9_empty_protos exReadmeDir ["out"] FS.empty ["README.md"] [72, 105]
    (by decide) (by decide) (by decide)

/-- C10: the fixed pattern passed to the in-memory lookup is well formed,
so the lookup always succeeds, and extract returns an error exactly when
the materialization step fails. -/
theorem c10_error_iff_materialization_fails (o : Oracle) (pd : ProtoDir) (out : Path)
    (fs : FS) :
    find pd.dir "**/*.proto" =
        Except.ok (((entriesFiles pd.dir.entries).map Prod.fst).filter isProtoPath) ∧
      ((ProtoDir.extract o pd out fs).2 = none ↔
        (matList o (out ++ ["proto"]) (fs, true) pd.dir.entries).2 = false) := by
  refine ⟨find_proto pd.dir, ?_⟩
  rw [extract_eq]
  cases h : (matList o (out ++ ["proto"]) (fs, true) pd.dir.entries).2 <;> simp [h]

end IncludeProtoDir
